import Mathlib

/-!
Shallow embedding of the `py-datastore` core: the byte-stream normalization
layer and teeing wrappers (`datastore/core/util/stream.py`), and the trivial
backends plus the adapter stats walk (`datastore/core/binarystore.py`).

Bytes are lists of naturals, Python dicts are insertion-ordered association
lists, and every `async` method becomes an explicit state-passing function.
Exceptions become explicit result constructors.
-/

set_option maxHeartbeats 1000000

namespace PyDatastore

/-- Bytes are modelled as lists of naturals, one entry per byte. -/
abbrev Bytes := List Nat

/-- Error outcome raised by datastore operations (`KeyError` in the source). -/
inductive DsError where
  | keyError
  deriving DecidableEq, Repr

/-- Modelled from the spec: the `datastore.core.key` module is not under
`src/`.  Keys are hierarchical paths carrying an equality and a `.path`
prefix (the namespace); the embedded code only uses `str(key.path)` and key
equality, so a key is a pair of its namespace string and its own name. -/
structure Key where
  path : String
  name : String
  deriving DecidableEq, Repr

/-- Result of a `receive_some` call: bytes, or `trio.ClosedResourceError`. -/
inductive StreamRes where
  | ok (b : Bytes)
  | closedErr
  deriving DecidableEq, Repr

/-- State of `_WrapingIterReceiveStreamBase` and its sync/async subclasses.
`source` holds the chunks the wrapped iterator has not yielded yet (`none`
once the source reference is cleared); `buffer`, `memview` and `offset`
model `_buffer`, `_memview` and `_offset`, where Python truthiness makes a
`none` or empty `memview` falsy. -/
structure WrapStream where
  buffer  : Bytes
  memview : Option Bytes
  offset  : Nat
  closed  : Bool
  source  : Option (List Bytes)
  size    : Option Nat
  deriving DecidableEq, Repr

/-- Embeds `_receive` of `_WrapingSyncIterReceiveStream` and
`_WrapingAsyncIterReceiveStream`: pull the next chunk, skipping empty ones;
an exhausted iterator yields the empty buffer. -/
def wrapUnderlyingReceive (cs : List Bytes) : Bytes × List Bytes :=
  match cs.dropWhile (fun c => c.isEmpty) with
  | [] => ([], [])
  | c :: rest => (c, rest)

/-- Embeds `_WrapingIterReceiveStreamBase.aclose`: optionally mark closed,
then clear the source reference, the memoryview and the buffer. -/
def WrapStream.aclose (s : WrapStream) (markClosed : Bool := true) : WrapStream :=
  let s1 := if ¬ s.closed ∧ markClosed then { s with closed := true } else s
  match s1.source with
  | none => s1
  | some _ => { s1 with source := none, memview := none, buffer := [] }

/-- Embeds the tail of `_WrapingIterReceiveStreamBase.receive_some` past the
buffer-serving branch: call `_receive`, turn an empty result into the end
signal (self-closing without marking closed), and otherwise apply the
stashing conditional exactly as written in the source (`max_bytes > len(value)`). -/
def WrapStream.receiveFresh (s : WrapStream) (cs : List Bytes) (max_bytes : Option Nat) :
    StreamRes × WrapStream :=
  let (value, rest) := wrapUnderlyingReceive cs
  if value.isEmpty then
    (StreamRes.ok [], WrapStream.aclose { s with source := some rest } false)
  else
    match max_bytes with
    | some mb =>
      if mb > value.length then
        let buf := s.buffer ++ value.drop mb
        (StreamRes.ok (value.take mb),
          { s with source := some rest, buffer := buf, memview := some buf })
      else
        (StreamRes.ok value, { s with source := some rest })
    | none => (StreamRes.ok value, { s with source := some rest })

/-- Embeds `_WrapingIterReceiveStreamBase.receive_some`: fail when closed,
report end-of-stream when the source reference is cleared, serve from the
stash when the memoryview is truthy (note the source never advances
`_offset` in the partial-serve branch), otherwise pull from the iterator. -/
def WrapStream.receive_some (s : WrapStream) (max_bytes : Option Nat) :
    StreamRes × WrapStream :=
  if s.closed then (StreamRes.closedErr, s)
  else
    match s.source with
    | none => (StreamRes.ok [], s)
    | some cs =>
      match s.memview with
      | some mv =>
        if 0 < mv.length then
          let endOffset := match max_bytes with
            | some mb => min (s.offset + mb) mv.length
            | none => mv.length
          let result := (mv.drop s.offset).take (endOffset - s.offset)
          if mv.length ≤ endOffset then
            (StreamRes.ok result, { s with offset := 0, memview := none, buffer := [] })
          else
            (StreamRes.ok result, s)
        else
          s.receiveFresh cs max_bytes
      | none => s.receiveFresh cs max_bytes

/-- Fuel-indexed loop body of `ReceiveStream.collect`: keep calling
`receive_some` with the fixed `max_bytes` hint, concatenating the chunks,
until an empty chunk signals the end. -/
def collectLoop : Nat → Option Nat → WrapStream → Option (Bytes × WrapStream)
  | 0, _, _ => none
  | fuel + 1, mb, s =>
    match s.receive_some mb with
    | (StreamRes.closedErr, _) => none
    | (StreamRes.ok c, s1) =>
      if c.isEmpty then some ([], s1)
      else
        match collectLoop fuel mb s1 with
        | none => none
        | some (v, s2) => some (c ++ v, s2)

/-- Embeds `ReceiveStream.collect`: loop `receive_some` using the stream's
`size` as the `max_bytes` hint, then close the stream on exit.  The fuel
`|chunks| + 1` is sufficient for every state reachable from a freshly
normalized stream, where each non-final call consumes at least one chunk. -/
def WrapStream.collect (s : WrapStream) : Option (Bytes × WrapStream) :=
  match collectLoop ((s.source.getD []).length + 1) s.size s with
  | none => none
  | some (v, s1) => some (v, s1.aclose)

/-- Embeds `receive_stream_from` on a raw `bytes` buffer: the buffer is
wrapped in a one-element tuple, a `Sequence`, so `size` is its length. -/
def receive_stream_from_bytes (b : Bytes) : WrapStream :=
  ⟨[], none, 0, false, some [b], some b.length⟩

/-- Embeds `receive_stream_from` on a sync `Sequence` of chunks:
`size` is the sum of the chunk lengths. -/
def receive_stream_from_seq (cs : List Bytes) : WrapStream :=
  ⟨[], none, 0, false, some cs, some (cs.map List.length).sum⟩

/-- Embeds `receive_stream_from` on a generic sync iterator of chunks
(not a `Sequence`, so no size can be deduced). -/
def receive_stream_from_syncIter (cs : List Bytes) : WrapStream :=
  ⟨[], none, 0, false, some cs, none⟩

/-- Embeds `receive_stream_from` on an async iterable of chunks
(metadata left `None`). -/
def receive_stream_from_asyncIter (cs : List Bytes) : WrapStream :=
  ⟨[], none, 0, false, some cs, none⟩

/-- Embeds `receive_stream_from` on an awaitable of one buffer: wrapped as a
one-shot async iterable yielding that buffer once, with no metadata. -/
def receive_stream_from_awaitable (b : Bytes) : WrapStream :=
  ⟨[], none, 0, false, some [b], none⟩

/-- Falsiness of the stashed memoryview.  The stash conditional in the source
appends `value[max_bytes:]` only when `max_bytes > len(value)`, so the
buffer only ever grows by empty suffixes and the memoryview stays falsy. -/
def memFalsy (s : WrapStream) : Prop := s.memview = none ∨ s.memview = some []

/-- Namespace collection of a `DictDatastore`: an insertion-ordered map from
keys to byte values, as Python dicts are. -/
abbrev NsColl := List (Key × Bytes)

/-- Backing state of a `DictDatastore`: `_items`, an insertion-ordered map
from namespace strings to namespace collections. -/
abbrev DictItems := List (String × NsColl)

/-- Lookup in a namespace collection (`collection[key]` read). -/
def collLookup (c : NsColl) (k : Key) : Option Bytes :=
  match c with
  | [] => none
  | (k1, v) :: t => if k1 = k then some v else collLookup t k

/-- Assignment `collection[key] = value` on an insertion-ordered dict:
replace in place when present, append otherwise. -/
def collInsert (c : NsColl) (k : Key) (v : Bytes) : NsColl :=
  match c with
  | [] => [(k, v)]
  | (k1, v1) :: t => if k1 = k then (k1, v) :: t else (k1, v1) :: collInsert t k v

/-- Deletion `del collection[key]` (on a key known to be present). -/
def collRemove (c : NsColl) (k : Key) : NsColl :=
  match c with
  | [] => []
  | (k1, v1) :: t => if k1 = k then t else (k1, v1) :: collRemove t k

/-- Lookup of a namespace in `_items`. -/
def itemsLookup (its : DictItems) (ns : String) : Option NsColl :=
  match its with
  | [] => none
  | (n, c) :: t => if n = ns then some c else itemsLookup t ns

/-- Assignment `_items[ns] = collection`. -/
def itemsSet (its : DictItems) (ns : String) (c : NsColl) : DictItems :=
  match its with
  | [] => [(ns, c)]
  | (n, c1) :: t => if n = ns then (n, c) :: t else (n, c1) :: itemsSet t ns c

/-- Deletion `del _items[ns]`. -/
def itemsRemove (its : DictItems) (ns : String) : DictItems :=
  match its with
  | [] => []
  | (n, c1) :: t => if n = ns then t else (n, c1) :: itemsRemove t ns

/-- Embeds `DictDatastore._collection`: return the namespace collection for
`str(key.path)`, inserting a fresh empty dict into `_items` first when the
namespace is not present yet (a mutation performed even by read accesses). -/
def dict_collection (k : Key) (its : DictItems) : NsColl × DictItems :=
  match itemsLookup its k.path with
  | some c => (c, its)
  | none => ([], itemsSet its k.path [])

/-- Embeds `DictDatastore.get`: `receive_stream_from(self._collection(key)[key])`,
raising `KeyError` when the key is absent from its namespace collection. -/
def dict_get (k : Key) (its : DictItems) : Except DsError WrapStream × DictItems :=
  let (c, its1) := dict_collection k its
  match collLookup c k with
  | some v => (Except.ok (receive_stream_from_bytes v), its1)
  | none => (Except.error DsError.keyError, its1)

/-- Embeds `DictDatastore.get_all`: `self._collection(key)[key]`. -/
def dict_get_all (k : Key) (its : DictItems) : Except DsError Bytes × DictItems :=
  let (c, its1) := dict_collection k its
  match collLookup c k with
  | some v => (Except.ok v, its1)
  | none => (Except.error DsError.keyError, its1)

/-- Embeds `DictDatastore._put`: `self._collection(key)[key] = await value.collect()`.
The result is `none` exactly when the modelled `collect` ran out of fuel,
which never happens for streams produced by the normalizer. -/
def dict__put (k : Key) (value : WrapStream) (its : DictItems) : Option DictItems :=
  match value.collect with
  | none => none
  | some (v, _) =>
    let (c, its1) := dict_collection k its
    some (itemsSet its1 k.path (collInsert c k v))

/-- Embeds `DictDatastore.delete`: `del self._collection(key)[key]`, then drop
the namespace from `_items` when its collection became empty.  A `KeyError`
from the inner `del` still leaves the namespace dict that `_collection`
may just have inserted. -/
def dict_delete (k : Key) (its : DictItems) : Except DsError Unit × DictItems :=
  let (c, its1) := dict_collection k its
  match collLookup c k with
  | none => (Except.error DsError.keyError, its1)
  | some _ =>
    let its2 := itemsSet its1 k.path (collRemove c k)
    let (c2, its3) := dict_collection k its2
    if c2.length = 0 then (Except.ok (), itemsRemove its3 k.path)
    else (Except.ok (), its3)

/-- Embeds `DictDatastore.contains`: `key in self._collection(key)`. -/
def dict_contains (k : Key) (its : DictItems) : Bool × DictItems :=
  let (c, its1) := dict_collection k its
  ((collLookup c k).isSome, its1)

/-- Embeds `DictDatastore.stat`:
`StreamMetadata(size=len(self._collection(key)[key]))`. -/
def dict_stat (k : Key) (its : DictItems) : Except DsError Nat × DictItems :=
  let (c, its1) := dict_collection k its
  match collLookup c k with
  | some v => (Except.ok v.length, its1)
  | none => (Except.error DsError.keyError, its1)

/-- Embeds `DictDatastore.__len__`: total number of stored objects. -/
def dict_len (its : DictItems) : Nat :=
  (its.map (fun nc => nc.2.length)).sum

/-- Embeds the size computation of `DictDatastore.datastore_stats`: the total
number of stored bytes over all namespaces. -/
def dict_stats_size (its : DictItems) : Nat :=
  (its.map (fun nc => (nc.2.map (fun kv => kv.2.length)).sum)).sum

/-- Embeds `DictDatastore.aclose`: `self._items.clear()`. -/
def dict_aclose (_its : DictItems) : DictItems := []

/-- Embeds `NullDatastore.get`: unconditionally raise `KeyError`. -/
def null_get (_k : Key) : Except DsError WrapStream :=
  Except.error DsError.keyError

/-- Embeds `NullDatastore._put`: do nothing with the key and ignore the
value; a `NullDatastore` has no state, modelled as `Unit`. -/
def null__put (_k : Key) (_value : WrapStream) (store : Unit) : Unit := store

/-- Embeds `NullDatastore.delete`: pretend there is any object that could be
removed by the name `key`, so return without raising. -/
def null_delete (_k : Key) : Except DsError Unit := Except.ok ()

/-- Embeds the inherited `Datastore.contains` on a `NullDatastore`: open via
`get`, close, return `True`; on `KeyError` return `False`. -/
def null_contains (k : Key) : Bool :=
  match null_get k with
  | Except.ok _ => true
  | Except.error _ => false

/-- State of a `TeeingReceiveStream`.  The upstream is modelled as the list
of chunks its successive `receive_some` calls will return (the list running
out, or an empty chunk, is the upstream end signal); `channels` records the
bytes sent so far to each attached side sender. -/
structure TeeStream where
  closed   : Bool
  source   : Option (List Bytes)
  channels : List (List Bytes)
  deriving DecidableEq, Repr

/-- Embeds `TeeingReceiveStream.aclose`: mark closed when requested, then
force-close the side senders, close the upstream, clear both references. -/
def TeeStream.aclose (s : TeeStream) (markClosed : Bool := true) : TeeStream :=
  let s1 := if markClosed then { s with closed := true } else s
  match s1.source with
  | none => s1
  | some _ => { s1 with source := none, channels := [] }

/-- Embeds `TeeingReceiveStream.receive_some`: fail when closed, return the
empty buffer when no source is set, otherwise pull one chunk from upstream,
fan a non-empty chunk out to every side sender, and on the upstream end
signal close the side senders and self-close without marking closed. -/
def TeeStream.receive_some (s : TeeStream) (_max_bytes : Option Nat) :
    StreamRes × TeeStream :=
  if s.closed then (StreamRes.closedErr, s)
  else
    match s.source with
    | none => (StreamRes.ok [], s)
    | some up =>
      let (value, up1) := match up with
        | [] => (([] : Bytes), ([] : List Bytes))
        | c :: r => (c, r)
      if value.isEmpty then
        (StreamRes.ok [], TeeStream.aclose { s with source := some up1, channels := [] } false)
      else
        (StreamRes.ok value,
          { s with source := some up1,
                   channels := s.channels.map (fun log => log ++ [value]) })

/-- Outcome of an operation on a receive channel handle. -/
inductive ChanRes (α : Type) where
  | ok (v : α)
  | errClosed
  | errEOC
  | errWouldBlock
  | errAttr
  | ret
  deriving DecidableEq, Repr

/-- Shared state of a `TeeingReceiveChannel` together with all its clones.
`handles` holds each co-owner's `_closed` flag; `none` marks a clone, whose
constructor returns before `self._closed = False` runs, so reading the flag
raises `AttributeError` in the source.  `releases` counts the refcount
decrements and is bookkeeping for the statements below, not source state. -/
structure TeeChan (α : Type) where
  handles  : List (Option Bool)
  refcount : Int
  source   : Option (List α)
  channels : List (List α)
  releases : Nat
  deriving DecidableEq, Repr

/-- Embeds `TeeingReceiveChannel.aclose` on handle `h`: write the closed flag
when requested (a write succeeds even on clones), return when no source is
set, otherwise decrement the refcount and tear down the shared state when it
reaches zero. -/
def TeeChan.aclose {α : Type} (s : TeeChan α) (h : Nat) (markClosed : Bool := true) :
    ChanRes α × TeeChan α :=
  let s1 := if markClosed then { s with handles := s.handles.set h (some true) } else s
  match s1.source with
  | none => (ChanRes.ret, s1)
  | some _ =>
    let s2 := { s1 with refcount := s1.refcount - 1, releases := s1.releases + 1 }
    if s2.refcount = 0 then (ChanRes.ret, { s2 with source := none, channels := [] })
    else (ChanRes.ret, s2)

/-- Embeds `TeeingReceiveChannel.receive` on handle `h`: closed check, then
end-of-channel when no source is set, otherwise pull one value, fanning it
out to the side senders; when the upstream raises end-of-channel, close the
side senders and release this co-owner's share without marking it closed. -/
def TeeChan.receive {α : Type} (s : TeeChan α) (h : Nat) : ChanRes α × TeeChan α :=
  match s.handles[h]? with
  | none => (ChanRes.errAttr, s)
  | some none => (ChanRes.errAttr, s)
  | some (some true) => (ChanRes.errClosed, s)
  | some (some false) =>
    match s.source with
    | none => (ChanRes.errEOC, s)
    | some [] =>
      (ChanRes.errEOC, (TeeChan.aclose { s with channels := [] } h false).2)
    | some (v :: rest) =>
      (ChanRes.ok v,
        { s with source := some rest,
                 channels := s.channels.map (fun log => log ++ [v]) })

/-- Embeds `TeeingReceiveChannel.receive_nowait` on handle `h`: closed check,
end-of-channel when no source is set, and otherwise an unconditional
`trio.WouldBlock`, because there is no guarantee that every side sender
would accept the value without blocking. -/
def TeeChan.receive_nowait {α : Type} (s : TeeChan α) (h : Nat) : ChanRes α × TeeChan α :=
  match s.handles[h]? with
  | none => (ChanRes.errAttr, s)
  | some none => (ChanRes.errAttr, s)
  | some (some true) => (ChanRes.errClosed, s)
  | some (some false) =>
    match s.source with
    | none => (ChanRes.errEOC, s)
    | some _ => (ChanRes.errWouldBlock, s)

/-- Embeds `TeeingReceiveChannel.clone` on handle `h`: fail when the handle
is closed, otherwise add a co-owner and increment the refcount.  The new
handle's `_closed` flag is never assigned because the constructor returns
early on the `_shared` path, hence `none`. -/
def TeeChan.clone {α : Type} (s : TeeChan α) (h : Nat) : ChanRes α × TeeChan α :=
  match s.handles[h]? with
  | none => (ChanRes.errAttr, s)
  | some none => (ChanRes.errAttr, s)
  | some (some true) => (ChanRes.errClosed, s)
  | some (some false) =>
    (ChanRes.ret, { s with handles := s.handles ++ [none], refcount := s.refcount + 1 })

/-- Freshly constructed `TeeingReceiveChannel`: one primary handle with its
closed flag assigned `False`, refcount one, no side senders. -/
def TeeChan.fresh (α : Type) (source : Option (List α)) : TeeChan α :=
  ⟨[some false], 1, source, [], 0⟩

/-- Operations a caller can perform on the handles of a teeing or wrapping
channel: clone, receive (possibly hitting end-of-channel), and aclose. -/
inductive ChanOp where
  | clone (h : Nat)
  | receive (h : Nat)
  | aclose (h : Nat)
  deriving DecidableEq, Repr

/-- One operation step on a teeing channel. -/
def TeeChan.step {α : Type} (s : TeeChan α) : ChanOp → ChanRes α × TeeChan α
  | ChanOp.clone h => s.clone h
  | ChanOp.receive h => s.receive h
  | ChanOp.aclose h => s.aclose h

/-- Run of a sequence of operations on a teeing channel. -/
def TeeChan.run {α : Type} (s : TeeChan α) : List ChanOp → TeeChan α
  | [] => s
  | op :: ops => TeeChan.run (s.step op).2 ops

/-- Shared state of a `_WrapingIterReceiveChannelBase` with all its clones.
Its constructor always assigns `_closed`, so handles are plain flags here;
`releases` is the same bookkeeping as for `TeeChan`. -/
structure WrapChan (α : Type) where
  handles  : List Bool
  refcount : Int
  source   : Option (List α)
  releases : Nat
  deriving DecidableEq, Repr

/-- Embeds `_WrapingIterReceiveChannelBase.aclose` on handle `h`: mark the
handle closed when requested, return when no source is set, otherwise
decrement the refcount, closing and clearing the source at zero. -/
def WrapChan.aclose {α : Type} (s : WrapChan α) (h : Nat) (markClosed : Bool := true) :
    ChanRes α × WrapChan α :=
  let s1 := if markClosed then { s with handles := s.handles.set h true } else s
  match s1.source with
  | none => (ChanRes.ret, s1)
  | some _ =>
    let s2 := { s1 with refcount := s1.refcount - 1, releases := s1.releases + 1 }
    if s2.refcount = 0 then (ChanRes.ret, { s2 with source := none })
    else (ChanRes.ret, s2)

/-- Embeds `_WrapingIterReceiveChannelBase.receive` on handle `h`: closed
check, end-of-channel when no source is set, otherwise take the next item;
when the iterator is exhausted, release this co-owner's share without
marking the handle closed and re-raise end-of-channel. -/
def WrapChan.receive {α : Type} (s : WrapChan α) (h : Nat) : ChanRes α × WrapChan α :=
  match s.handles[h]? with
  | none => (ChanRes.errAttr, s)
  | some true => (ChanRes.errClosed, s)
  | some false =>
    match s.source with
    | none => (ChanRes.errEOC, s)
    | some [] => (ChanRes.errEOC, (WrapChan.aclose s h false).2)
    | some (v :: rest) => (ChanRes.ok v, { s with source := some rest })

/-- Embeds `_WrapingIterReceiveChannelBase.clone` on handle `h`: fail when
closed, otherwise add a co-owner (here with its flag assigned `False`) and
increment the refcount. -/
def WrapChan.clone {α : Type} (s : WrapChan α) (h : Nat) : ChanRes α × WrapChan α :=
  match s.handles[h]? with
  | none => (ChanRes.errAttr, s)
  | some true => (ChanRes.errClosed, s)
  | some false =>
    (ChanRes.ret, { s with handles := s.handles ++ [false], refcount := s.refcount + 1 })

/-- Freshly constructed wrapping channel. -/
def WrapChan.fresh (α : Type) (source : Option (List α)) : WrapChan α :=
  ⟨[false], 1, source, 0⟩

/-- One operation step on a wrapping channel. -/
def WrapChan.step {α : Type} (s : WrapChan α) : ChanOp → ChanRes α × WrapChan α
  | ChanOp.clone h => s.clone h
  | ChanOp.receive h => s.receive h
  | ChanOp.aclose h => s.aclose h

/-- Run of a sequence of operations on a wrapping channel. -/
def WrapChan.run {α : Type} (s : WrapChan α) : List ChanOp → WrapChan α
  | [] => s
  | op :: ops => WrapChan.run (s.step op).2 ops

/-- Number of handles of a teeing channel that are not marked closed (a
clone's unassigned flag counts as not closed). -/
def unclosedCount (hs : List (Option Bool)) : Nat :=
  (hs.filter (fun f => decide (f ≠ some true))).length

/-- Bookkeeping invariant of the shared teeing-channel state: the refcount
is the number of handles created minus the number of release events (each
`aclose` call and each end-of-channel `receive` made while the source was
still set releases one share), it never goes negative, and it is at least
one while the source is still set. -/
def TeeChanInv {α : Type} (s : TeeChan α) : Prop :=
  s.refcount = (s.handles.length : Int) - s.releases
  ∧ 0 ≤ s.refcount
  ∧ (s.source ≠ none → 1 ≤ s.refcount)

/-- Same bookkeeping invariant for the wrapping channel. -/
def WrapChanInv {α : Type} (s : WrapChan α) : Prop :=
  s.refcount = (s.handles.length : Int) - s.releases
  ∧ 0 ≤ s.refcount
  ∧ (s.source ≠ none → 1 ≤ s.refcount)

/-- Modelled from the spec: `datastore.core.util.metadata` is not under
`src/`.  Size accuracy qualifier `unknown | lower_bound | approximate |
exact`; the weaker operand dominates when combining. -/
inductive SizeAccuracy where
  | unknown
  | lowerBound
  | approximate
  | exact
  deriving DecidableEq, Repr

/-- Rank of an accuracy value, used to pick the weaker of two. -/
def SizeAccuracy.rank : SizeAccuracy → Nat
  | SizeAccuracy.unknown => 0
  | SizeAccuracy.lowerBound => 1
  | SizeAccuracy.approximate => 2
  | SizeAccuracy.exact => 3

/-- Weaker of two accuracy qualifiers. -/
def SizeAccuracy.weaker (a b : SizeAccuracy) : SizeAccuracy :=
  if a.rank ≤ b.rank then a else b

/-- Modelled from the spec: the datastore metadata record with its
distinguished `IGNORE` sentinel, meaning "exclude this subtree from
aggregation" as opposed to "size unknown". -/
inductive DatastoreMetadata where
  | IGNORE
  | mk (size : Option Nat) (size_accuracy : SizeAccuracy)
  deriving DecidableEq, Repr

/-- Modelled from the spec: metadata addition.  `x + IGNORE == x`, accuracy
degrades to the weaker operand, and unknown + known = known, treated as a
lower bound of the sum. -/
def addMeta : DatastoreMetadata → DatastoreMetadata → DatastoreMetadata
  | DatastoreMetadata.IGNORE, y => y
  | x, DatastoreMetadata.IGNORE => x
  | DatastoreMetadata.mk (some a) acca, DatastoreMetadata.mk (some b) accb =>
    DatastoreMetadata.mk (some (a + b)) (acca.weaker accb)
  | DatastoreMetadata.mk (some a) acca, DatastoreMetadata.mk none _ =>
    DatastoreMetadata.mk (some a) (acca.weaker SizeAccuracy.lowerBound)
  | DatastoreMetadata.mk none _, DatastoreMetadata.mk (some b) accb =>
    DatastoreMetadata.mk (some b) (accb.weaker SizeAccuracy.lowerBound)
  | DatastoreMetadata.mk none acca, DatastoreMetadata.mk none accb =>
    DatastoreMetadata.mk none (acca.weaker accb)

/-- Node of an adapter topology.  `leafDict` is a `DictDatastore` backend,
`adapter` the single-child `Adapter` of the source; `multi` is modelled from
the spec: a datastore adapter with more than one backing store (such as
mount), which aggregates its children's stats under the shared `_seen`
protocol, summing with `addMeta` from the neutral `IGNORE`.  Node identities
(`id(...)` in the source) are the indices into the node list. -/
inductive DsNode where
  | leafDict (items : DictItems)
  | adapter (child : Nat)
  | multi (children : List Nat)
  deriving DecidableEq, Repr

/-- Children referenced by a node. -/
def nodeChildren : DsNode → List Nat
  | DsNode.leafDict _ => []
  | DsNode.adapter c => [c]
  | DsNode.multi cs => cs

/-- Identities that can ever be inserted into a `_seen` set over graph `g`:
every id mentioned as some node's child, without duplicates. -/
def allChildIds (g : List DsNode) : List Nat :=
  ((g.map nodeChildren).flatten).dedup

/-- Number of insertable identities not yet in `seen`. -/
def availIds (g : List DsNode) (seen : List Nat) : Nat :=
  ((allChildIds g).filter (fun c => decide (c ∉ seen))).length

/-- Fuel-indexed stats walk over an adapter topology.  `Sum.inl i` asks node
`i` for `datastore_stats(selector, _seen=seen)`; `Sum.inr cs` folds the
remaining children of a multi adapter, threading `seen`.  A `DictDatastore`
leaf reports its exact byte size and silently ignores `_seen`; an `Adapter`
returns `IGNORE` when its child's identity is already in `seen` and
otherwise inserts the identity and recurses, exactly as in the source.
Every recursive call consumes one unit of fuel; `none` means it ran out. -/
def dsStatsGo (g : List DsNode) : Nat → Nat ⊕ List Nat → List Nat →
    Option (DatastoreMetadata × List Nat)
  | 0, _, _ => none
  | f + 1, Sum.inl i, seen =>
    match g[i]? with
    | none => some (DatastoreMetadata.mk none SizeAccuracy.unknown, seen)
    | some (DsNode.leafDict its) =>
      some (DatastoreMetadata.mk (some (dict_stats_size its)) SizeAccuracy.exact, seen)
    | some (DsNode.adapter c) =>
      if c ∈ seen then some (DatastoreMetadata.IGNORE, seen)
      else dsStatsGo g f (Sum.inl c) (c :: seen)
    | some (DsNode.multi cs) => dsStatsGo g f (Sum.inr cs) seen
  | _ + 1, Sum.inr [], seen => some (DatastoreMetadata.IGNORE, seen)
  | f + 1, Sum.inr (c :: cs), seen =>
    match (if c ∈ seen then some (DatastoreMetadata.IGNORE, seen)
           else dsStatsGo g f (Sum.inl c) (c :: seen)) with
    | none => none
    | some (m1, seen1) =>
      match dsStatsGo g f (Sum.inr cs) seen1 with
      | none => none
      | some (m2, seen2) => some (addMeta m1 m2, seen2)

/-- Top-level `datastore_stats()` call on node `i`: `_seen` defaults to the
empty set. -/
def datastore_stats (g : List DsNode) (fuel : Nat) (i : Nat) :
    Option (DatastoreMetadata × List Nat) :=
  dsStatsGo g fuel (Sum.inl i) []

/- ------------------------------------------------------------------ -/
/- Theorems                                                           -/
/- ------------------------------------------------------------------ -/

theorem wrapUnderlyingReceive_cons_nil (cs : List Bytes) :
    wrapUnderlyingReceive ([] :: cs) = wrapUnderlyingReceive cs := by
  simp [wrapUnderlyingReceive, List.dropWhile]

theorem receive_some_skip_empty (s : WrapStream) (cs : List Bytes) (mb : Option Nat)
    (hc : s.closed = false) (hm : memFalsy s) (hs : s.source = some ([] :: cs)) :
    s.receive_some mb = WrapStream.receive_some { s with source := some cs } mb := by
  rcases hm with hm | hm <;>
    simp [WrapStream.receive_some, hc, hs, hm, WrapStream.receiveFresh,
      wrapUnderlyingReceive_cons_nil, WrapStream.aclose]

/-- Central draining lemma: starting from any not-closed state whose buffer
is empty and whose memoryview is falsy, the `collect` loop returns the
concatenation of the remaining chunks and ends with the source cleared but
the closed flag untouched, for any fixed `max_bytes` hint. -/
theorem collectLoop_of_fresh : ∀ (cs : List Bytes) (fuel : Nat) (mb : Option Nat)
    (s : WrapStream), cs.length < fuel → s.closed = false → s.buffer = [] →
    memFalsy s → s.source = some cs →
    collectLoop fuel mb s = some (cs.flatten, ⟨[], none, s.offset, false, none, s.size⟩) := by
  intro cs
  induction cs with
  | nil =>
    intro fuel mb s hf hc hb hm hs
    obtain ⟨f, rfl⟩ : ∃ f, fuel = f + 1 := ⟨fuel - 1, by omega⟩
    rcases hm with hm | hm <;>
      simp [collectLoop, WrapStream.receive_some, hc, hs, hm, WrapStream.receiveFresh,
        wrapUnderlyingReceive, WrapStream.aclose]
  | cons c cs ih =>
    intro fuel mb s hf hc hb hm hs
    obtain ⟨f, rfl⟩ : ∃ f, fuel = f + 1 := ⟨fuel - 1, by omega⟩
    by_cases hce : c = []
    · subst hce
      have hrw : collectLoop (f + 1) mb s
          = collectLoop (f + 1) mb { s with source := some cs } := by
        simp only [collectLoop]
        rw [receive_some_skip_empty s cs mb hc hm hs]
      rw [hrw, ih (f + 1) mb { s with source := some cs } (by simp at hf ⊢; omega) hc hb hm rfl]
      simp
    · have hcempty : c.isEmpty = false := by
        simp [List.isEmpty_iff, hce]
      have hval : wrapUnderlyingReceive (c :: cs) = (c, cs) := by
        simp [wrapUnderlyingReceive, List.dropWhile, hcempty]
      have hlen : cs.length < f := by simp at hf; omega
      rcases mb with _ | m
      · have hrecv : s.receive_some none = (StreamRes.ok c, { s with source := some cs }) := by
          rcases hm with hm | hm <;>
            simp [WrapStream.receive_some, hc, hs, hm, WrapStream.receiveFresh, hval, hcempty]
        rw [show collectLoop (f + 1) none s
            = match collectLoop f none { s with source := some cs } with
              | none => none
              | some (v, s2) => some (c ++ v, s2) by
          simp only [collectLoop, hrecv, hcempty]; rfl]
        rw [ih f none { s with source := some cs } (by omega) hc hb hm rfl]
        simp
      · by_cases hmb : m > c.length
        · have hdrop : c.drop m = [] := List.drop_eq_nil_of_le (by omega)
          have htake : c.take m = c := List.take_of_length_le (by omega)
          have hrecv : s.receive_some (some m) = (StreamRes.ok c,
              { s with source := some cs, buffer := [], memview := some [] }) := by
            rcases hm with hm | hm <;>
              simp [WrapStream.receive_some, hc, hs, hm, WrapStream.receiveFresh, hval,
                hcempty, hmb, hdrop, htake, hb]
          rw [show collectLoop (f + 1) (some m) s
              = match collectLoop f (some m)
                  { s with source := some cs, buffer := [], memview := some [] } with
                | none => none
                | some (v, s2) => some (c ++ v, s2) by
            simp only [collectLoop, hrecv, hcempty]; rfl]
          rw [ih f (some m) { s with source := some cs, buffer := [], memview := some [] }
            (by omega) hc rfl (Or.inr rfl) rfl]
          simp
        · have hrecv : s.receive_some (some m)
              = (StreamRes.ok c, { s with source := some cs }) := by
            rcases hm with hm | hm <;>
              simp [WrapStream.receive_some, hc, hs, hm, WrapStream.receiveFresh, hval,
                hcempty, hmb]
          rw [show collectLoop (f + 1) (some m) s
              = match collectLoop f (some m) { s with source := some cs } with
                | none => none
                | some (v, s2) => some (c ++ v, s2) by
            simp only [collectLoop, hrecv, hcempty]; rfl]
          rw [ih f (some m) { s with source := some cs } (by omega) hc hb hm rfl]
          simp

/-- Draining a freshly normalized stream yields the concatenation of its
chunks (whatever the `size` hint is) and leaves a closed stream. -/
theorem collect_of_fresh (cs : List Bytes) (size : Option Nat) :
    WrapStream.collect ⟨[], none, 0, false, some cs, size⟩
      = some (cs.flatten, ⟨[], none, 0, true, none, size⟩) := by
  rw [WrapStream.collect]
  rw [collectLoop_of_fresh cs ((some cs).getD []).length.succ size
    ⟨[], none, 0, false, some cs, size⟩ (by simp) rfl rfl (Or.inl rfl) rfl]
  simp [WrapStream.aclose]

theorem itemsLookup_set (its : DictItems) (ns : String) (c : NsColl) :
    itemsLookup (itemsSet its ns c) ns = some c := by
  induction its with
  | nil => simp [itemsSet, itemsLookup]
  | cons h t ih =>
    by_cases hn : h.1 = ns <;> simp [itemsSet, itemsLookup, hn, ih]

theorem collLookup_insert (c : NsColl) (k : Key) (v : Bytes) :
    collLookup (collInsert c k v) k = some v := by
  induction c with
  | nil => simp [collInsert, collLookup]
  | cons h t ih =>
    by_cases hk : h.1 = k <;> simp [collInsert, collLookup, hk, ih]

theorem itemsSet_absent (its : DictItems) (ns : String) (c : NsColl)
    (h : itemsLookup its ns = none) : itemsSet its ns c = its ++ [(ns, c)] := by
  induction its with
  | nil => simp [itemsSet]
  | cons hd t ih =>
    by_cases hn : hd.1 = ns
    · simp [itemsLookup, hn] at h
    · simp [itemsLookup, hn] at h
      simp [itemsSet, hn, ih h]

theorem flatten_filter_nonempty (cs : List Bytes) :
    (cs.filter (fun c => !c.isEmpty)).flatten = cs.flatten := by
  induction cs with
  | nil => rfl
  | cons c t ih =>
    by_cases hc : c = []
    · subst hc; simp [ih]
    · have hce : c.isEmpty = false := by simp [List.isEmpty_iff, hc]
      simp [List.filter, hce, ih]

/-- Storing a freshly normalized stream of chunks and reading the key back
yields the concatenation of the chunks, whatever the `size` hint. -/
theorem dict_put_get_all_fresh (k : Key) (its : DictItems) (cs : List Bytes)
    (size : Option Nat) :
    (dict__put k ⟨[], none, 0, false, some cs, size⟩ its).map
        (fun i => (dict_get_all k i).1)
      = some (Except.ok cs.flatten) := by
  rcases hdc : dict_collection k its with ⟨c, its1⟩
  simp only [dict__put, collect_of_fresh, hdc]
  simp [dict_get_all, dict_collection, itemsLookup_set, collLookup_insert]

/-- C1: on a `DictDatastore`, `put(k, b)` followed by `get_all(k)` returns
exactly `b`; the same holds when the value is supplied as a sync iterable of
chunks (as a sequence with a size hint or as a bare iterator), an async
iterable of chunks, or an awaitable of one buffer — regardless of chunk
boundaries, the stored value is the concatenation of the chunks. -/
theorem C1_put_get_all_round_trip (k : Key) (its : DictItems) (b : Bytes)
    (cs : List Bytes) :
    (dict__put k (receive_stream_from_bytes b) its).map (fun i => (dict_get_all k i).1)
        = some (Except.ok b)
    ∧ (dict__put k (receive_stream_from_seq cs) its).map (fun i => (dict_get_all k i).1)
        = some (Except.ok cs.flatten)
    ∧ (dict__put k (receive_stream_from_syncIter cs) its).map (fun i => (dict_get_all k i).1)
        = some (Except.ok cs.flatten)
    ∧ (dict__put k (receive_stream_from_asyncIter cs) its).map (fun i => (dict_get_all k i).1)
        = some (Except.ok cs.flatten)
    ∧ (dict__put k (receive_stream_from_awaitable b) its).map (fun i => (dict_get_all k i).1)
        = some (Except.ok b) := by
  refine ⟨?_, ?_, ?_, ?_, ?_⟩
  · have h := dict_put_get_all_fresh k its [b] (some b.length)
    simpa [receive_stream_from_bytes] using h
  · exact dict_put_get_all_fresh k its cs _
  · exact dict_put_get_all_fresh k its cs none
  · exact dict_put_get_all_fresh k its cs none
  · have h := dict_put_get_all_fresh k its [b] none
    simpa [receive_stream_from_awaitable] using h

/-- C2: evaluation of the code at the failing input.  The stash conditional
in `_WrapingIterReceiveStreamBase.receive_some` is inverted (`max_bytes >
len(value)` where the adjacent comment "Stash extra bytes that are too
large for our receiver" requires `len(value) > max_bytes`), so a chunk
larger than `max_bytes` is returned whole and nothing is buffered:
`receive_some(max_bytes=1)` on an iterable yielding one three-byte chunk
returns all three bytes with an empty internal buffer. -/
theorem C2_oversized_chunk_returned_whole :
    WrapStream.receive_some (receive_stream_from_syncIter [[97, 98, 99]]) (some 1)
      = (StreamRes.ok [97, 98, 99], ⟨[], none, 0, false, some [], none⟩)
    ∧ ¬ ([97, 98, 99] : Bytes).length ≤ 1 := by
  exact ⟨rfl, by decide⟩

/-- C3 counterexample: `NullDatastore.delete` does not raise `KeyError`;
on the concrete key `/a:x` it returns successfully, refuting the claim that
`get` and `delete` both raise not-found unconditionally. -/
theorem C3_cx_null_delete_does_not_raise :
    null_delete ⟨"/a", "x"⟩ = Except.ok ()
    ∧ null_delete ⟨"/a", "x"⟩ ≠ Except.error DsError.keyError := by
  exact ⟨rfl, by simp [null_delete]⟩

/-- C3 amended: `NullDatastore.get` raises `KeyError` unconditionally, but
`delete` silently succeeds (the source pretends the named object existed);
`put` discards the value leaving the store unchanged, and `contains`
returns `False`. -/
theorem C3_null_datastore_behaviour (k : Key) (v : WrapStream) (store : Unit) :
    null_get k = Except.error DsError.keyError
    ∧ null_delete k = Except.ok ()
    ∧ null__put k v store = store
    ∧ null_contains k = false := by
  exact ⟨rfl, rfl, rfl, rfl⟩

/-- C4: the byte-stream normalizer skips empty chunks — they never signal
end-of-stream: with any number of empty chunks in front of a non-empty one,
`receive_some` returns that non-empty chunk; and a put from such a source
stores exactly the concatenation of the non-empty chunks, both for sync and
for async iterables. -/
theorem C4_empty_chunks_transparent :
    (∀ (n : Nat) (c : Bytes) (rest : List Bytes) (size : Option Nat), c ≠ [] →
      WrapStream.receive_some
          ⟨[], none, 0, false, some (List.replicate n [] ++ c :: rest), size⟩ none
        = (StreamRes.ok c, ⟨[], none, 0, false, some rest, size⟩))
    ∧ ∀ (k : Key) (its : DictItems) (cs : List Bytes),
      (dict__put k (receive_stream_from_seq cs) its).map (fun i => (dict_get_all k i).1)
        = some (Except.ok (cs.filter (fun c => !c.isEmpty)).flatten)
      ∧ (dict__put k (receive_stream_from_asyncIter cs) its).map
            (fun i => (dict_get_all k i).1)
        = some (Except.ok (cs.filter (fun c => !c.isEmpty)).flatten) := by
  constructor
  · intro n
    induction n with
    | zero =>
      intro c rest size hc
      have hce : c.isEmpty = false := by simp [List.isEmpty_iff, hc]
      simp [WrapStream.receive_some, WrapStream.receiveFresh, wrapUnderlyingReceive,
        List.dropWhile, hce]
    | succ n ih =>
      intro c rest size hc
      have hskip := receive_some_skip_empty
        ⟨[], none, 0, false, some ([] :: (List.replicate n [] ++ c :: rest)), size⟩
        (List.replicate n [] ++ c :: rest) none rfl (Or.inl rfl) rfl
      rw [show List.replicate (n + 1) ([] : Bytes) ++ c :: rest
          = [] :: (List.replicate n [] ++ c :: rest) by simp [List.replicate]]
      rw [hskip]
      exact ih c rest size hc
  · intro k its cs
    constructor
    · rw [flatten_filter_nonempty]
      exact dict_put_get_all_fresh k its cs _
    · rw [flatten_filter_nonempty]
      exact dict_put_get_all_fresh k its cs none

/-- C4 witness: two empty chunks in front of `[5]` are skipped at a
concrete input and do not end the stream. -/
theorem C4_empty_chunks_transparent_witness :
    WrapStream.receive_some
        ⟨[], none, 0, false, some (List.replicate 2 [] ++ [5] :: [[6]]), none⟩ none
      = (StreamRes.ok [5], ⟨[], none, 0, false, some [[6]], none⟩) :=
  C4_empty_chunks_transparent.1 2 [5] [[6]] none (by decide)

/-- C9: on a `DictDatastore` whose backing map lacks the key's namespace,
each of `get`, `get_all`, `contains`, `stat`, and a `delete` failing with
`KeyError` inserts a fresh empty namespace dict into `_items` as a side
effect; the reported length and byte size stay the same (the entry
contributes zero), and it persists until `aclose` clears everything. -/
theorem C9_reads_insert_namespace (k : Key) (its : DictItems)
    (h : itemsLookup its k.path = none) :
    dict_get k its = (Except.error DsError.keyError, its ++ [(k.path, [])])
    ∧ dict_get_all k its = (Except.error DsError.keyError, its ++ [(k.path, [])])
    ∧ dict_contains k its = (false, its ++ [(k.path, [])])
    ∧ dict_stat k its = (Except.error DsError.keyError, its ++ [(k.path, [])])
    ∧ dict_delete k its = (Except.error DsError.keyError, its ++ [(k.path, [])])
    ∧ itemsLookup (its ++ [(k.path, [])]) k.path = some []
    ∧ dict_len (its ++ [(k.path, [])]) = dict_len its
    ∧ dict_stats_size (its ++ [(k.path, [])]) = dict_stats_size its
    ∧ dict_aclose (its ++ [(k.path, [])]) = [] := by
  have habs : itemsSet its k.path [] = its ++ [(k.path, [])] :=
    itemsSet_absent its k.path [] h
  have hcoll : dict_collection k its = ([], its ++ [(k.path, [])]) := by
    simp [dict_collection, h, habs]
  refine ⟨?_, ?_, ?_, ?_, ?_, ?_, ?_, ?_, rfl⟩
  · simp [dict_get, hcoll, collLookup]
  · simp [dict_get_all, hcoll, collLookup]
  · simp [dict_contains, hcoll, collLookup]
  · simp [dict_stat, hcoll, collLookup]
  · simp [dict_delete, hcoll, collLookup]
  · rw [← habs]
    exact itemsLookup_set its k.path []
  · simp [dict_len]
  · simp [dict_stats_size]

/-- C9 witness: on the empty store, a `contains` miss and a failing delete
both leave the fresh empty namespace `/a` behind. -/
theorem C9_reads_insert_namespace_witness :
    dict_contains ⟨"/a", "x"⟩ [] = (false, [("/a", [])])
    ∧ dict_delete ⟨"/a", "x"⟩ [] = (Except.error DsError.keyError, [("/a", [])]) := by
  have h := C9_reads_insert_namespace ⟨"/a", "x"⟩ [] rfl
  exact ⟨h.2.2.1, h.2.2.2.2.1⟩

theorem receiveFresh_not_closedErr (s : WrapStream) (cs : List Bytes) (mb : Option Nat) :
    (s.receiveFresh cs mb).1 ≠ StreamRes.closedErr := by
  rcases h : wrapUnderlyingReceive cs with ⟨value, rest⟩
  cases hv : value.isEmpty
  · rcases mb with _ | m
    · simp [WrapStream.receiveFresh, h, hv]
    · by_cases hm : m > value.length <;> simp [WrapStream.receiveFresh, h, hv, hm]
  · simp [WrapStream.receiveFresh, h, hv]

theorem wrap_receive_not_closedErr (s : WrapStream) (mb : Option Nat)
    (hc : s.closed = false) : (s.receive_some mb).1 ≠ StreamRes.closedErr := by
  obtain ⟨buf, mv, off, cl, src, sz⟩ := s
  simp only at hc
  subst hc
  cases src with
  | none => simp [WrapStream.receive_some]
  | some cs =>
    cases mv with
    | none => simpa [WrapStream.receive_some] using receiveFresh_not_closedErr _ cs mb
    | some mv =>
      by_cases hl : 0 < mv.length
      · rcases mb with _ | m <;>
          (simp only [WrapStream.receive_some, hl, if_true, if_false, Bool.false_eq_true,
            reduceIte]; split <;> simp)
      · simpa [WrapStream.receive_some, hl] using receiveFresh_not_closedErr _ cs mb

theorem tee_receive_not_closedErr (s : TeeStream) (mb : Option Nat)
    (hc : s.closed = false) : (s.receive_some mb).1 ≠ StreamRes.closedErr := by
  obtain ⟨cl, src, ch⟩ := s
  simp only at hc
  subst hc
  cases src with
  | none => simp [TeeStream.receive_some]
  | some up =>
    cases up with
    | nil => simp [TeeStream.receive_some, TeeStream.aclose]
    | cons c r =>
      cases hce : c.isEmpty <;> simp [TeeStream.receive_some, TeeStream.aclose, hce]

/-- C7: for normalized and teeing byte streams alike: a not-closed stream
never fails with closed-resource; once the source reference is cleared
(which is what the end-of-stream transition does, leaving the closed flag
untouched) every further `receive_some` returns the empty buffer and changes
nothing; after an explicit `aclose` every `receive_some` fails with
closed-resource; and `aclose` is idempotent on every state, before and
after end-of-stream. -/
theorem C7_eof_empty_aclose_idempotent :
    (∀ (s : TeeStream) (mb : Option Nat), s.closed = false →
      (s.receive_some mb).1 ≠ StreamRes.closedErr)
    ∧ (∀ (s : TeeStream) (mb : Option Nat), s.closed = false → s.source = none →
      s.receive_some mb = (StreamRes.ok [], s))
    ∧ (∀ (s : TeeStream) (up : List Bytes) (mb : Option Nat), s.closed = false →
      s.source = some up → up.head?.getD [] = [] →
      s.receive_some mb = (StreamRes.ok [], ⟨false, none, []⟩))
    ∧ (∀ (s : TeeStream) (mb : Option Nat),
      (TeeStream.receive_some s.aclose mb).1 = StreamRes.closedErr)
    ∧ (∀ (s : TeeStream), TeeStream.aclose s.aclose = s.aclose)
    ∧ (∀ (s : WrapStream) (mb : Option Nat), s.closed = false →
      (s.receive_some mb).1 ≠ StreamRes.closedErr)
    ∧ (∀ (s : WrapStream) (mb : Option Nat), s.closed = false → s.source = none →
      s.receive_some mb = (StreamRes.ok [], s))
    ∧ (∀ (s : WrapStream) (cs : List Bytes) (mb : Option Nat), s.closed = false →
      memFalsy s → s.source = some cs → cs.dropWhile (fun c => c.isEmpty) = [] →
      s.receive_some mb = (StreamRes.ok [], ⟨[], none, s.offset, false, none, s.size⟩))
    ∧ (∀ (s : WrapStream) (mb : Option Nat),
      (WrapStream.receive_some s.aclose mb).1 = StreamRes.closedErr)
    ∧ (∀ (s : WrapStream), WrapStream.aclose s.aclose = s.aclose) := by
  refine ⟨tee_receive_not_closedErr, ?_, ?_, ?_, ?_,
    wrap_receive_not_closedErr, ?_, ?_, ?_, ?_⟩
  · intro s mb hc hs
    obtain ⟨cl, src, ch⟩ := s
    simp only at hc hs
    subst hc
    subst hs
    simp [TeeStream.receive_some]
  · intro s up mb hc hs hh
    obtain ⟨cl, src, ch⟩ := s
    simp only at hc hs
    subst hc
    subst hs
    cases up with
    | nil => simp [TeeStream.receive_some, TeeStream.aclose]
    | cons c r =>
      simp only [List.head?_cons, Option.getD_some] at hh
      subst hh
      simp [TeeStream.receive_some, TeeStream.aclose]
  · intro s mb
    obtain ⟨cl, src, ch⟩ := s
    cases src <;> simp [TeeStream.aclose, TeeStream.receive_some]
  · intro s
    obtain ⟨cl, src, ch⟩ := s
    cases src <;> simp [TeeStream.aclose]
  · intro s mb hc hs
    obtain ⟨buf, mv, off, cl, src, sz⟩ := s
    simp only at hc hs
    subst hc
    subst hs
    simp [WrapStream.receive_some]
  · intro s cs mb hc hm hs hdrop
    obtain ⟨buf, mv, off, cl, src, sz⟩ := s
    simp only at hc hs
    subst hc
    subst hs
    have hu : wrapUnderlyingReceive cs = ([], []) := by
      simp [wrapUnderlyingReceive, hdrop]
    rcases hm with hm | hm <;>
      simp only at hm <;>
      subst hm <;>
      simp [WrapStream.receive_some, WrapStream.receiveFresh, hu, WrapStream.aclose]
  · intro s mb
    obtain ⟨buf, mv, off, cl, src, sz⟩ := s
    cases src <;> cases cl <;> simp [WrapStream.aclose, WrapStream.receive_some]
  · intro s
    obtain ⟨buf, mv, off, cl, src, sz⟩ := s
    cases src <;> cases cl <;> simp [WrapStream.aclose]

/-- C7 witness: on a teeing stream whose upstream signals end immediately
and on a normalized stream whose iterator yields one empty chunk and ends,
`receive_some` returns empty without raising and clears the source. -/
theorem C7_eof_empty_aclose_idempotent_witness :
    TeeStream.receive_some ⟨false, some [], [[]]⟩ none = (StreamRes.ok [], ⟨false, none, []⟩)
    ∧ WrapStream.receive_some ⟨[], none, 0, false, some [[]], none⟩ (some 4)
      = (StreamRes.ok [], ⟨[], none, 0, false, none, none⟩) := by
  constructor
  · exact C7_eof_empty_aclose_idempotent.2.2.1 ⟨false, some [], [[]]⟩ [] none rfl rfl (by decide)
  · exact C7_eof_empty_aclose_idempotent.2.2.2.2.2.2.2.1
      ⟨[], none, 0, false, some [[]], none⟩ [[]] (some 4) rfl (Or.inl rfl) rfl (by decide)

/-- C6 counterexample: a freshly constructed tee with no upstream does not
fail with the closed-resource error: the byte-stream tee returns the empty
buffer and the channel tee raises end-of-channel instead. -/
theorem C6_cx_fresh_tee_not_closed_error :
    (TeeStream.receive_some ⟨false, none, []⟩ none).1 = StreamRes.ok []
    ∧ (TeeStream.receive_some ⟨false, none, []⟩ none).1 ≠ StreamRes.closedErr
    ∧ (TeeChan.receive (TeeChan.fresh Nat none) 0).1 = ChanRes.errEOC
    ∧ (TeeChan.receive (TeeChan.fresh Nat none) 0).1 ≠ ChanRes.errClosed := by
  exact ⟨rfl, by decide, rfl, by decide⟩

/-- C6 amended: on a tee constructed without an upstream, while no source
has been set, `receive_some` on the byte-stream tee returns the empty buffer
leaving the state unchanged, and `receive` / `receive_nowait` on the channel
tee raise end-of-channel; the closed-resource error is raised only once the
handle itself has been closed. -/
theorem C6_fresh_tee_returns_empty_or_eoc (mb : Option Nat) (α : Type) :
    TeeStream.receive_some ⟨false, none, []⟩ mb = (StreamRes.ok [], ⟨false, none, []⟩)
    ∧ TeeChan.receive (TeeChan.fresh α none) 0 = (ChanRes.errEOC, TeeChan.fresh α none)
    ∧ TeeChan.receive_nowait (TeeChan.fresh α none) 0
      = (ChanRes.errEOC, TeeChan.fresh α none)
    ∧ (TeeStream.receive_some (TeeStream.aclose ⟨false, none, []⟩) mb).1
      = StreamRes.closedErr
    ∧ (TeeChan.receive (TeeChan.aclose (TeeChan.fresh α none) 0).2 0).1
      = ChanRes.errClosed := by
  exact ⟨rfl, rfl, rfl, rfl, rfl⟩

/-- C10: `TeeingReceiveChannel.receive_nowait` never returns a value: on an
open handle with a source set it raises would-block unconditionally — even
when the upstream has an item immediately available — because there is no
guarantee every side sender would accept the value non-blockingly; on a
closed handle it raises closed-resource; with no source set it raises
end-of-channel. -/
theorem C10_receive_nowait_never_returns_value {α : Type} (s : TeeChan α)
    (h : Nat) (l : List α) :
    (s.handles[h]? = some (some false) → s.source = some l →
      s.receive_nowait h = (ChanRes.errWouldBlock, s))
    ∧ (s.handles[h]? = some (some true) →
      s.receive_nowait h = (ChanRes.errClosed, s))
    ∧ (s.handles[h]? = some (some false) → s.source = none →
      s.receive_nowait h = (ChanRes.errEOC, s)) := by
  refine ⟨fun h1 h2 => ?_, fun h1 => ?_, fun h1 h2 => ?_⟩
  · simp [TeeChan.receive_nowait, h1, h2]
  · simp [TeeChan.receive_nowait, h1]
  · simp [TeeChan.receive_nowait, h1, h2]

/-- C10 witness: with the item `7` immediately available upstream, the fresh
primary handle still gets would-block. -/
theorem C10_receive_nowait_witness :
    TeeChan.receive_nowait (TeeChan.fresh Nat (some [7])) 0
      = (ChanRes.errWouldBlock, TeeChan.fresh Nat (some [7])) :=
  (C10_receive_nowait_never_returns_value (TeeChan.fresh Nat (some [7])) 0 [7]).1 rfl rfl

theorem dsStatsGo_mono (g : List DsNode) : ∀ (fuel fuel' : Nat) (x : Nat ⊕ List Nat)
    (seen : List Nat) (r : DatastoreMetadata × List Nat),
    dsStatsGo g fuel x seen = some r → fuel ≤ fuel' →
    dsStatsGo g fuel' x seen = some r := by
  intro fuel
  induction fuel with
  | zero =>
    intro fuel' x seen r h
    simp [dsStatsGo] at h
  | succ f ih =>
    intro fuel' x seen r h hle
    obtain ⟨f', rfl⟩ : ∃ f', fuel' = f' + 1 := ⟨fuel' - 1, by omega⟩
    have hff : f ≤ f' := by omega
    match x with
    | Sum.inl i =>
      simp only [dsStatsGo] at h ⊢
      rcases hg : g[i]? with _ | nd
      · rw [hg] at h; exact h
      · rcases nd with its | c | cs
        · rw [hg] at h; exact h
        · rw [hg] at h
          dsimp only at h ⊢
          by_cases hc : c ∈ seen
          · rw [if_pos hc] at h ⊢; exact h
          · rw [if_neg hc] at h ⊢; exact ih f' _ _ _ h hff
        · rw [hg] at h; exact ih f' _ _ _ h hff
    | Sum.inr [] =>
      simp only [dsStatsGo] at h ⊢; exact h
    | Sum.inr (c :: cs) =>
      simp only [dsStatsGo] at h ⊢
      by_cases hc : c ∈ seen
      · rw [if_pos hc] at h ⊢
        dsimp only at h ⊢
        rcases h2 : dsStatsGo g f (Sum.inr cs) seen with _ | ⟨m2, seen2⟩
        · rw [h2] at h; exact absurd h (by simp)
        · rw [h2] at h
          rw [ih f' _ _ _ h2 hff]
          exact h
      · rw [if_neg hc] at h ⊢
        rcases h1 : dsStatsGo g f (Sum.inl c) (c :: seen) with _ | ⟨m1, seen1⟩
        · rw [h1] at h; exact absurd h (by simp)
        · rw [h1] at h
          rw [ih f' _ _ _ h1 hff]
          dsimp only at h ⊢
          rcases h2 : dsStatsGo g f (Sum.inr cs) seen1 with _ | ⟨m2, seen2⟩
          · rw [h2] at h; exact absurd h (by simp)
          · rw [h2] at h
            rw [ih f' _ _ _ h2 hff]
            exact h

theorem dsStatsGo_seen_subset (g : List DsNode) : ∀ (fuel : Nat) (x : Nat ⊕ List Nat)
    (seen : List Nat) (m : DatastoreMetadata) (seen2 : List Nat),
    dsStatsGo g fuel x seen = some (m, seen2) → ∀ a ∈ seen, a ∈ seen2 := by
  intro fuel
  induction fuel with
  | zero =>
    intro x seen m seen2 h
    simp [dsStatsGo] at h
  | succ f ih =>
    intro x seen m seen2 h a ha
    match x with
    | Sum.inl i =>
      simp only [dsStatsGo] at h
      rcases hg : g[i]? with _ | nd
      · rw [hg] at h
        dsimp only at h
        obtain rfl : seen = seen2 := by injection h with h1; injection h1
        exact ha
      · rcases nd with its | c | cs
        · rw [hg] at h
          dsimp only at h
          obtain rfl : seen = seen2 := by injection h with h1; injection h1
          exact ha
        · rw [hg] at h
          dsimp only at h
          by_cases hc : c ∈ seen
          · rw [if_pos hc] at h
            obtain rfl : seen = seen2 := by injection h with h1; injection h1
            exact ha
          · rw [if_neg hc] at h
            exact ih _ _ _ _ h a (List.mem_cons_of_mem c ha)
        · rw [hg] at h
          exact ih _ _ _ _ h a ha
    | Sum.inr [] =>
      simp only [dsStatsGo] at h
      obtain rfl : seen = seen2 := by injection h with h1; injection h1
      exact ha
    | Sum.inr (c :: cs) =>
      simp only [dsStatsGo] at h
      by_cases hc : c ∈ seen
      · rw [if_pos hc] at h
        dsimp only at h
        rcases h2 : dsStatsGo g f (Sum.inr cs) seen with _ | ⟨m2, s2⟩
        · rw [h2] at h; exact absurd h (by simp)
        · rw [h2] at h
          obtain rfl : s2 = seen2 := by injection h with h1; injection h1
          exact ih _ _ _ _ h2 a ha
      · rw [if_neg hc] at h
        rcases h1 : dsStatsGo g f (Sum.inl c) (c :: seen) with _ | ⟨m1, s1⟩
        · rw [h1] at h; exact absurd h (by simp)
        · rw [h1] at h
          dsimp only at h
          rcases h2 : dsStatsGo g f (Sum.inr cs) s1 with _ | ⟨m2, s2⟩
          · rw [h2] at h; exact absurd h (by simp)
          · rw [h2] at h
            obtain rfl : s2 = seen2 := by injection h with h1; injection h1
            exact ih _ _ _ _ h2 a
              (ih _ _ _ _ h1 a (List.mem_cons_of_mem c ha))

theorem children_mem_allChildIds (g : List DsNode) (i : Nat) (nd : DsNode)
    (hg : g[i]? = some nd) (c : Nat) (hc : c ∈ nodeChildren nd) :
    c ∈ allChildIds g := by
  have hnd : nd ∈ g := List.get?_mem (by rw [List.get?_eq_getElem?]; exact hg)
  rw [allChildIds, List.mem_dedup, List.mem_flatten]
  exact ⟨nodeChildren nd, List.mem_map_of_mem nodeChildren hnd, hc⟩

theorem length_filter_notin_anti (l : List Nat) (seen seen2 : List Nat)
    (hsub : ∀ a ∈ seen, a ∈ seen2) :
    (l.filter (fun x => decide (x ∉ seen2))).length
      ≤ (l.filter (fun x => decide (x ∉ seen))).length := by
  induction l with
  | nil => simp
  | cons a t ih =>
    by_cases h2 : a ∈ seen2
    · by_cases h1 : a ∈ seen
      · simp only [List.filter, decide_eq_true_eq]
        rw [decide_eq_false (by simpa using h2), decide_eq_false (by simpa using h1)]
        exact ih
      · simp only [List.filter]
        rw [decide_eq_false (by simpa using h2), decide_eq_true (by simpa using h1)]
        exact Nat.le_succ_of_le ih
    · have h1 : a ∉ seen := fun hmem => h2 (hsub a hmem)
      simp only [List.filter]
      rw [decide_eq_true (by simpa using h2), decide_eq_true (by simpa using h1)]
      simpa using ih

theorem length_filter_notin_strict (l : List Nat) (c : Nat) (seen : List Nat)
    (hc : c ∈ l) (hcs : c ∉ seen) :
    (l.filter (fun x => decide (x ∉ c :: seen))).length
      < (l.filter (fun x => decide (x ∉ seen))).length := by
  induction l with
  | nil => cases hc
  | cons a t ih =>
    by_cases hac : a = c
    · subst hac
      simp only [List.filter]
      rw [decide_eq_false (by simp), decide_eq_true (by simpa using hcs)]
      have hle := length_filter_notin_anti t seen (a :: seen)
        (fun b hb => List.mem_cons_of_mem a hb)
      exact Nat.lt_succ_of_le hle
    · have hct : c ∈ t := by
        rcases List.mem_cons.mp hc with h | h
        · exact absurd h.symm hac
        · exact h
      by_cases ha : a ∈ seen
      · simp only [List.filter]
        rw [decide_eq_false (by simp [ha]), decide_eq_false (by simpa using ha)]
        exact ih hct
      · have hacs : a ∉ c :: seen := by
          simp [hac, ha]
        simp only [List.filter]
        rw [decide_eq_true (by simpa using hacs), decide_eq_true (by simpa using ha)]
        simpa using ih hct

theorem availIds_anti (g : List DsNode) (seen seen2 : List Nat)
    (hsub : ∀ a ∈ seen, a ∈ seen2) : availIds g seen2 ≤ availIds g seen :=
  length_filter_notin_anti (allChildIds g) seen seen2 hsub

theorem availIds_strict (g : List DsNode) (c : Nat) (seen : List Nat)
    (hc : c ∈ allChildIds g) (hcs : c ∉ seen) :
    availIds g (c :: seen) < availIds g seen :=
  length_filter_notin_strict (allChildIds g) c seen hc hcs

/-- Totality of the stats walk: by strong induction on the number of
insertable identities not yet seen, some finite fuel always suffices — the
walk terminates on every topology, cyclic ones included, because an adapter
inserts the child identity into `seen` before recursing. -/
theorem dsStats_total (g : List DsNode) : ∀ (n : Nat) (seen : List Nat),
    availIds g seen < n →
    (∀ i, ∃ fuel r, dsStatsGo g fuel (Sum.inl i) seen = some r)
    ∧ (∀ cs, (∀ c ∈ cs, c ∈ allChildIds g) →
      ∃ fuel r, dsStatsGo g fuel (Sum.inr cs) seen = some r) := by
  intro n
  induction n with
  | zero =>
    intro seen h
    omega
  | succ n ih =>
    intro seen hlt
    have hInr : ∀ cs, (∀ c ∈ cs, c ∈ allChildIds g) →
        ∃ fuel r, dsStatsGo g fuel (Sum.inr cs) seen = some r := by
      intro cs
      induction cs with
      | nil =>
        intro _
        exact ⟨1, (DatastoreMetadata.IGNORE, seen), rfl⟩
      | cons c cs ihc =>
        intro hvalid
        by_cases hc : c ∈ seen
        · obtain ⟨f2, ⟨m2, seen2⟩, h2⟩ :=
            ihc (fun d hd => hvalid d (List.mem_cons_of_mem c hd))
          refine ⟨f2 + 1, (addMeta DatastoreMetadata.IGNORE m2, seen2), ?_⟩
          simp [dsStatsGo, if_pos hc, h2]
        · have hcall : c ∈ allChildIds g := hvalid c (List.mem_cons_self c cs)
          have h1avail : availIds g (c :: seen) < n :=
            Nat.lt_of_lt_of_le (availIds_strict g c seen hcall hc) (by omega)
          obtain ⟨f1, ⟨m1, seen1⟩, h1⟩ := (ih (c :: seen) h1avail).1 c
          have hsub1 : ∀ a ∈ c :: seen, a ∈ seen1 :=
            dsStatsGo_seen_subset g f1 _ _ m1 seen1 h1
          have h2avail : availIds g seen1 < n :=
            Nat.lt_of_le_of_lt (availIds_anti g (c :: seen) seen1 hsub1) h1avail
          obtain ⟨f2, ⟨m2, seen2⟩, h2⟩ := (ih seen1 h2avail).2 cs
            (fun d hd => hvalid d (List.mem_cons_of_mem c hd))
          refine ⟨max f1 f2 + 1, (addMeta m1 m2, seen2), ?_⟩
          have h1m := dsStatsGo_mono g f1 (max f1 f2) _ _ _ h1 (Nat.le_max_left f1 f2)
          have h2m := dsStatsGo_mono g f2 (max f1 f2) _ _ _ h2 (Nat.le_max_right f1 f2)
          simp [dsStatsGo, if_neg hc, h1m, h2m]
    refine ⟨?_, hInr⟩
    intro i
    rcases hg : g[i]? with _ | nd
    · refine ⟨1, (DatastoreMetadata.mk none SizeAccuracy.unknown, seen), ?_⟩
      simp [dsStatsGo, hg]
    · rcases nd with its | c | cs
      · refine ⟨1, (DatastoreMetadata.mk (some (dict_stats_size its))
          SizeAccuracy.exact, seen), ?_⟩
        simp [dsStatsGo, hg]
      · by_cases hc : c ∈ seen
        · refine ⟨1, (DatastoreMetadata.IGNORE, seen), ?_⟩
          simp [dsStatsGo, hg, if_pos hc]
        · have hcall : c ∈ allChildIds g :=
            children_mem_allChildIds g i _ hg c (by simp [nodeChildren])
          have h1avail : availIds g (c :: seen) < n :=
            Nat.lt_of_lt_of_le (availIds_strict g c seen hcall hc) (by omega)
          obtain ⟨f1, r1, h1⟩ := (ih (c :: seen) h1avail).1 c
          refine ⟨f1 + 1, r1, ?_⟩
          simp only [dsStatsGo, hg, if_neg hc]
          exact h1
      · have hvalid : ∀ d ∈ cs, d ∈ allChildIds g := fun d hd =>
          children_mem_allChildIds g i _ hg d (by simpa [nodeChildren] using hd)
        obtain ⟨f1, r1, h1⟩ := hInr cs hvalid
        refine ⟨f1 + 1, r1, ?_⟩
        simp only [dsStatsGo, hg]
        exact h1

/-- C5: the adapter's stats walk checks the seen set before recursing: when
the child's identity is already in `seen` it returns the `IGNORE` sentinel,
otherwise it inserts the identity and returns the child's aggregated stats.
Consequently, in a DAG where one `DictDatastore` leaf holding three bytes is
reachable via two distinct adapter paths, a single `datastore_stats()` call
reports size 3 — the leaf counted exactly once — and the walk terminates on
every topology, cyclic ones included (some finite fuel always suffices). -/
theorem C5_cycle_safe_stats :
    (∀ (g : List DsNode) (fuel i c : Nat) (seen : List Nat),
      g[i]? = some (DsNode.adapter c) →
      (c ∈ seen → dsStatsGo g (fuel + 1) (Sum.inl i) seen
        = some (DatastoreMetadata.IGNORE, seen))
      ∧ (c ∉ seen → dsStatsGo g (fuel + 1) (Sum.inl i) seen
        = dsStatsGo g fuel (Sum.inl c) (c :: seen)))
    ∧ datastore_stats [DsNode.leafDict [("/a", [(⟨"/a", "x"⟩, [1, 2, 3])])],
        DsNode.adapter 0, DsNode.adapter 0, DsNode.multi [1, 2]] 5 3
      = some (DatastoreMetadata.mk (some 3) SizeAccuracy.exact, [2, 0, 1])
    ∧ (∀ (g : List DsNode) (i : Nat) (seen : List Nat),
      ∃ fuel r, dsStatsGo g fuel (Sum.inl i) seen = some r) := by
  refine ⟨?_, by decide, ?_⟩
  · intro g fuel i c seen hg
    constructor
    · intro hc
      simp [dsStatsGo, hg, if_pos hc]
    · intro hc
      simp [dsStatsGo, hg, if_neg hc]
  · intro g i seen
    exact (dsStats_total g (availIds g seen + 1) seen (Nat.lt_succ_self _)).1 i

/-- C5 witness: on the one-node cyclic topology `[adapter 0]` pointing at
itself, the seen-check returns IGNORE, and the walk from the empty seen set
terminates with some fuel. -/
theorem C5_cycle_safe_stats_witness :
    dsStatsGo [DsNode.adapter 0] 1 (Sum.inl 0) [0]
      = some (DatastoreMetadata.IGNORE, [0])
    ∧ ∃ fuel r, dsStatsGo [DsNode.adapter 0] fuel (Sum.inl 0) [] = some r := by
  constructor
  · exact (C5_cycle_safe_stats.1 [DsNode.adapter 0] 0 0 0 [0] rfl).1 (by decide)
  · exact C5_cycle_safe_stats.2.2 [DsNode.adapter 0] 0 []

theorem teeChan_aclose_inv {α : Type} (s : TeeChan α) (hnd : Nat) (mark : Bool)
    (hI : TeeChanInv s) : TeeChanInv (TeeChan.aclose s hnd mark).2 := by
  obtain ⟨hs, rc, src, ch, rel⟩ := s
  obtain ⟨h1, h2, h3⟩ := hI
  simp only at h1 h2 h3
  cases mark with
  | false =>
    cases src with
    | none => exact ⟨h1, h2, h3⟩
    | some l =>
      have hge : 1 ≤ rc := h3 (by simp)
      by_cases hz : rc - 1 = 0
      · refine ⟨?_, ?_, ?_⟩ <;> (simp [TeeChan.aclose, hz]; try omega)
      · refine ⟨?_, ?_, ?_⟩ <;> (simp [TeeChan.aclose, hz]; try omega)
  | true =>
    cases src with
    | none =>
      exact ⟨by simpa [TeeChan.aclose, List.length_set] using h1, h2, h3⟩
    | some l =>
      have hge : 1 ≤ rc := h3 (by simp)
      by_cases hz : rc - 1 = 0
      · refine ⟨?_, ?_, ?_⟩ <;> (simp [TeeChan.aclose, hz, List.length_set]; try omega)
      · refine ⟨?_, ?_, ?_⟩ <;> (simp [TeeChan.aclose, hz, List.length_set]; try omega)

theorem teeChan_clone_inv {α : Type} (s : TeeChan α) (hnd : Nat)
    (hI : TeeChanInv s) : TeeChanInv (TeeChan.clone s hnd).2 := by
  obtain ⟨hs, rc, src, ch, rel⟩ := s
  obtain ⟨h1, h2, h3⟩ := hI
  simp only at h1 h2 h3
  simp only [TeeChan.clone]
  rcases hh : hs[hnd]? with _ | f
  · exact ⟨h1, h2, h3⟩
  · rcases f with _ | b
    · exact ⟨h1, h2, h3⟩
    · cases b
      · refine ⟨?_, ?_, ?_⟩ <;> simp <;> omega
      · exact ⟨h1, h2, h3⟩

theorem teeChan_receive_inv {α : Type} (s : TeeChan α) (hnd : Nat)
    (hI : TeeChanInv s) : TeeChanInv (TeeChan.receive s hnd).2 := by
  obtain ⟨hs, rc, src, ch, rel⟩ := s
  simp only [TeeChan.receive]
  rcases hh : hs[hnd]? with _ | f
  · exact hI
  · rcases f with _ | b
    · exact hI
    · cases b
      · rcases src with _ | l
        · exact hI
        · rcases l with _ | ⟨v, rest⟩
          · exact teeChan_aclose_inv ⟨hs, rc, some [], [], rel⟩ hnd false
              ⟨hI.1, hI.2.1, hI.2.2⟩
          · obtain ⟨h1, h2, h3⟩ := hI
            simp only at h1 h2 h3
            refine ⟨h1, h2, fun _ => h3 (by simp)⟩
      · exact hI

theorem teeChan_run_inv {α : Type} : ∀ (ops : List ChanOp) (s : TeeChan α),
    TeeChanInv s → TeeChanInv (TeeChan.run s ops) := by
  intro ops
  induction ops with
  | nil => intro s hI; exact hI
  | cons op ops ih =>
    intro s hI
    refine ih _ ?_
    cases op with
    | clone h => exact teeChan_clone_inv s h hI
    | receive h => exact teeChan_receive_inv s h hI
    | aclose h => exact teeChan_aclose_inv s h true hI

theorem wrapChan_aclose_inv {α : Type} (s : WrapChan α) (hnd : Nat) (mark : Bool)
    (hI : WrapChanInv s) : WrapChanInv (WrapChan.aclose s hnd mark).2 := by
  obtain ⟨hs, rc, src, rel⟩ := s
  obtain ⟨h1, h2, h3⟩ := hI
  simp only at h1 h2 h3
  cases mark with
  | false =>
    cases src with
    | none => exact ⟨h1, h2, h3⟩
    | some l =>
      have hge : 1 ≤ rc := h3 (by simp)
      by_cases hz : rc - 1 = 0
      · refine ⟨?_, ?_, ?_⟩ <;> (simp [WrapChan.aclose, hz]; try omega)
      · refine ⟨?_, ?_, ?_⟩ <;> (simp [WrapChan.aclose, hz]; try omega)
  | true =>
    cases src with
    | none =>
      exact ⟨by simpa [WrapChan.aclose, List.length_set] using h1, h2, h3⟩
    | some l =>
      have hge : 1 ≤ rc := h3 (by simp)
      by_cases hz : rc - 1 = 0
      · refine ⟨?_, ?_, ?_⟩ <;> (simp [WrapChan.aclose, hz, List.length_set]; try omega)
      · refine ⟨?_, ?_, ?_⟩ <;> (simp [WrapChan.aclose, hz, List.length_set]; try omega)

theorem wrapChan_clone_inv {α : Type} (s : WrapChan α) (hnd : Nat)
    (hI : WrapChanInv s) : WrapChanInv (WrapChan.clone s hnd).2 := by
  obtain ⟨hs, rc, src, rel⟩ := s
  obtain ⟨h1, h2, h3⟩ := hI
  simp only at h1 h2 h3
  simp only [WrapChan.clone]
  rcases hh : hs[hnd]? with _ | b
  · exact ⟨h1, h2, h3⟩
  · cases b
    · refine ⟨?_, ?_, ?_⟩ <;> simp <;> omega
    · exact ⟨h1, h2, h3⟩

theorem wrapChan_receive_inv {α : Type} (s : WrapChan α) (hnd : Nat)
    (hI : WrapChanInv s) : WrapChanInv (WrapChan.receive s hnd).2 := by
  obtain ⟨hs, rc, src, rel⟩ := s
  simp only [WrapChan.receive]
  rcases hh : hs[hnd]? with _ | b
  · exact hI
  · cases b
    · rcases src with _ | l
      · exact hI
      · rcases l with _ | ⟨v, rest⟩
        · exact wrapChan_aclose_inv ⟨hs, rc, some [], rel⟩ hnd false hI
        · obtain ⟨h1, h2, h3⟩ := hI
          simp only at h1 h2 h3
          refine ⟨h1, h2, fun _ => h3 (by simp)⟩
    · exact hI

theorem wrapChan_run_inv {α : Type} : ∀ (ops : List ChanOp) (s : WrapChan α),
    WrapChanInv s → WrapChanInv (WrapChan.run s ops) := by
  intro ops
  induction ops with
  | nil => intro s hI; exact hI
  | cons op ops ih =>
    intro s hI
    refine ih _ ?_
    cases op with
    | clone h => exact wrapChan_clone_inv s h hI
    | receive h => exact wrapChan_receive_inv s h hI
    | aclose h => exact wrapChan_aclose_inv s h true hI

theorem teeChan_aclose_source_clear {α : Type} (s : TeeChan α) (h : Nat) (mark : Bool) :
    (TeeChan.aclose s h mark).2.source = none →
    s.source = none ∨ (TeeChan.aclose s h mark).2.refcount = 0 := by
  obtain ⟨hs, rc, src, ch, rel⟩ := s
  cases mark with
  | false =>
    rcases src with _ | l
    · exact fun _ => Or.inl rfl
    · by_cases hz : rc - 1 = 0
      · exact fun _ => Or.inr (by simp [TeeChan.aclose, hz])
      · intro hn
        exact absurd hn (by simp [TeeChan.aclose, hz])
  | true =>
    rcases src with _ | l
    · exact fun _ => Or.inl rfl
    · by_cases hz : rc - 1 = 0
      · exact fun _ => Or.inr (by simp [TeeChan.aclose, hz])
      · intro hn
        exact absurd hn (by simp [TeeChan.aclose, hz])

theorem teeChan_step_source_clear {α : Type} (s : TeeChan α) (op : ChanOp) :
    (s.step op).2.source = none → s.source = none ∨ (s.step op).2.refcount = 0 := by
  obtain ⟨hs, rc, src, ch, rel⟩ := s
  cases op with
  | clone h =>
    simp only [TeeChan.step, TeeChan.clone]
    rcases hh : hs[h]? with _ | f
    · exact Or.inl
    · rcases f with _ | b
      · exact Or.inl
      · cases b
        · exact Or.inl
        · exact Or.inl
  | receive h =>
    simp only [TeeChan.step, TeeChan.receive]
    rcases hh : hs[h]? with _ | f
    · exact Or.inl
    · rcases f with _ | b
      · exact Or.inl
      · cases b
        · rcases src with _ | l
          · exact Or.inl
          · rcases l with _ | ⟨v, rest⟩
            · intro hn
              by_cases hz : rc - 1 = 0
              · exact Or.inr (by simp [TeeChan.aclose, hz])
              · exact absurd hn (by simp [TeeChan.aclose, hz])
            · intro hn
              exact absurd hn (by simp)
        · exact Or.inl
  | aclose h =>
    exact teeChan_aclose_source_clear ⟨hs, rc, src, ch, rel⟩ h true

theorem teeChan_aclose_ret {α : Type} (s : TeeChan α) (h : Nat) (mark : Bool) :
    (TeeChan.aclose s h mark).1 = ChanRes.ret := by
  obtain ⟨hs, rc, src, ch, rel⟩ := s
  cases mark <;> rcases src with _ | l <;> by_cases hz : rc - 1 = 0 <;>
    simp [TeeChan.aclose, hz]

theorem teeChan_aclose_noop {α : Type} (s : TeeChan α) (h : Nat)
    (hsrc : s.source = none) :
    (TeeChan.aclose s h).2 = { s with handles := s.handles.set h (some true) } := by
  obtain ⟨hs, rc, src, ch, rel⟩ := s
  simp only at hsrc
  subst hsrc
  simp [TeeChan.aclose]

theorem wrapChan_aclose_source_clear {α : Type} (s : WrapChan α) (h : Nat) (mark : Bool) :
    (WrapChan.aclose s h mark).2.source = none →
    s.source = none ∨ (WrapChan.aclose s h mark).2.refcount = 0 := by
  obtain ⟨hs, rc, src, rel⟩ := s
  cases mark with
  | false =>
    rcases src with _ | l
    · exact fun _ => Or.inl rfl
    · by_cases hz : rc - 1 = 0
      · exact fun _ => Or.inr (by simp [WrapChan.aclose, hz])
      · intro hn
        exact absurd hn (by simp [WrapChan.aclose, hz])
  | true =>
    rcases src with _ | l
    · exact fun _ => Or.inl rfl
    · by_cases hz : rc - 1 = 0
      · exact fun _ => Or.inr (by simp [WrapChan.aclose, hz])
      · intro hn
        exact absurd hn (by simp [WrapChan.aclose, hz])

theorem wrapChan_step_source_clear {α : Type} (s : WrapChan α) (op : ChanOp) :
    (s.step op).2.source = none → s.source = none ∨ (s.step op).2.refcount = 0 := by
  obtain ⟨hs, rc, src, rel⟩ := s
  cases op with
  | clone h =>
    simp only [WrapChan.step, WrapChan.clone]
    rcases hh : hs[h]? with _ | b
    · exact Or.inl
    · cases b
      · exact Or.inl
      · exact Or.inl
  | receive h =>
    simp only [WrapChan.step, WrapChan.receive]
    rcases hh : hs[h]? with _ | b
    · exact Or.inl
    · cases b
      · rcases src with _ | l
        · exact Or.inl
        · rcases l with _ | ⟨v, rest⟩
          · intro hn
            by_cases hz : rc - 1 = 0
            · exact Or.inr (by simp [WrapChan.aclose, hz])
            · exact absurd hn (by simp [WrapChan.aclose, hz])
          · intro hn
            exact absurd hn (by simp)
      · exact Or.inl
  | aclose h =>
    exact wrapChan_aclose_source_clear ⟨hs, rc, src, rel⟩ h true

theorem wrapChan_aclose_ret {α : Type} (s : WrapChan α) (h : Nat) (mark : Bool) :
    (WrapChan.aclose s h mark).1 = ChanRes.ret := by
  obtain ⟨hs, rc, src, rel⟩ := s
  cases mark <;> rcases src with _ | l <;> by_cases hz : rc - 1 = 0 <;>
    simp [WrapChan.aclose, hz]

theorem wrapChan_aclose_noop {α : Type} (s : WrapChan α) (h : Nat)
    (hsrc : s.source = none) :
    (WrapChan.aclose s h).2 = { s with handles := s.handles.set h true } := by
  obtain ⟨hs, rc, src, rel⟩ := s
  simp only at hsrc
  subst hsrc
  simp [WrapChan.aclose]

/-- C8 counterexample: on a fresh teeing channel whose upstream is already
exhausted, a single `receive` hits end-of-channel and releases the
co-owner's share without marking the handle closed: the refcount drops to
zero while one not-yet-closed handle remains, refuting "refcount equals the
number of not-yet-closed co-owner handles". -/
theorem C8_cx_eof_receive_breaks_handle_count :
    (TeeChan.receive (TeeChan.fresh Nat (some [])) 0).2.refcount = 0
    ∧ unclosedCount (TeeChan.receive (TeeChan.fresh Nat (some [])) 0).2.handles = 1
    ∧ (TeeChan.receive (TeeChan.fresh Nat (some [])) 0).2.refcount
      ≠ (unclosedCount (TeeChan.receive (TeeChan.fresh Nat (some [])) 0).2.handles : Int) := by
  exact ⟨rfl, rfl, by decide⟩

/-- C8 amended: for any sequence of clone, receive and aclose operations on
a teeing or wrapping channel, the shared refcount equals the number of
handles created minus the number of release events, where a release happens
on each aclose call and each end-of-channel receive made while the source is
still set (so a receive hitting end-of-channel releases a share without
closing its handle, and an aclose of an already-closed handle can release
another handle's share); the refcount never goes negative and stays at least
one while the source is set; the source is cleared exactly at the step where
the refcount reaches zero; and aclose never raises — once the source has
been cleared it only marks the handle closed and changes nothing else. -/
theorem C8_refcount_is_handles_minus_releases :
    (∀ (α : Type) (src : Option (List α)) (ops : List ChanOp),
      TeeChanInv (TeeChan.run (TeeChan.fresh α src) ops))
    ∧ (∀ (α : Type) (s : TeeChan α) (op : ChanOp),
      (s.step op).2.source = none → s.source = none ∨ (s.step op).2.refcount = 0)
    ∧ (∀ (α : Type) (s : TeeChan α) (h : Nat) (mark : Bool),
      (TeeChan.aclose s h mark).1 = ChanRes.ret)
    ∧ (∀ (α : Type) (s : TeeChan α) (h : Nat), s.source = none →
      (TeeChan.aclose s h).2 = { s with handles := s.handles.set h (some true) })
    ∧ (∀ (α : Type) (src : Option (List α)) (ops : List ChanOp),
      WrapChanInv (WrapChan.run (WrapChan.fresh α src) ops))
    ∧ (∀ (α : Type) (s : WrapChan α) (op : ChanOp),
      (s.step op).2.source = none → s.source = none ∨ (s.step op).2.refcount = 0)
    ∧ (∀ (α : Type) (s : WrapChan α) (h : Nat) (mark : Bool),
      (WrapChan.aclose s h mark).1 = ChanRes.ret)
    ∧ (∀ (α : Type) (s : WrapChan α) (h : Nat), s.source = none →
      (WrapChan.aclose s h).2 = { s with handles := s.handles.set h true }) := by
  refine ⟨?_, fun α => teeChan_step_source_clear, fun α => teeChan_aclose_ret,
    fun α => teeChan_aclose_noop, ?_, fun α => wrapChan_step_source_clear,
    fun α => wrapChan_aclose_ret, fun α => wrapChan_aclose_noop⟩
  · intro α src ops
    refine teeChan_run_inv ops _ ⟨?_, ?_, ?_⟩ <;> simp [TeeChan.fresh]
  · intro α src ops
    refine wrapChan_run_inv ops _ ⟨?_, ?_, ?_⟩ <;> simp [WrapChan.fresh]

/-- C8 witness: the invariant evaluated on a concrete run (clone, drain to
end-of-channel, close), and the aclose no-op at a concrete post-teardown
state. -/
theorem C8_refcount_is_handles_minus_releases_witness :
    TeeChanInv (TeeChan.run (TeeChan.fresh Nat (some [5]))
      [ChanOp.clone 0, ChanOp.receive 0, ChanOp.receive 0, ChanOp.aclose 0])
    ∧ (TeeChan.aclose (⟨[some true], 0, none, [], 1⟩ : TeeChan Nat) 0).2
      = ⟨[some true], 0, none, [], 1⟩ := by
  constructor
  · exact C8_refcount_is_handles_minus_releases.1 Nat (some [5])
      [ChanOp.clone 0, ChanOp.receive 0, ChanOp.receive 0, ChanOp.aclose 0]
  · have h := C8_refcount_is_handles_minus_releases.2.2.2.1 Nat
      ⟨[some true], 0, none, [], 1⟩ 0 rfl
    simpa using h

end PyDatastore
